import Mathlib

/-
Verification of the microstrip patch antenna design engine
(rectangular and circular patch solvers, Simpson quadrature,
truncated Bessel series).

The numeric core is embedded over the exact reals: every JavaScript
number becomes a real, `Math.sqrt`/`Math.log`/... become the Mathlib
functions, and the `number | null` result channel becomes `Option`.
Over the reals every value is finite, so the source's
`Number.isFinite` guards are vacuously true and are recorded as
comments at the point where they occur.  A second, separate model
(`namespace JS`) embeds JavaScript number semantics faithfully
(a value is a real, NaN, or a signed infinity) for the claims that
are specifically about non-finite inputs.
-/

namespace MS

/-- Speed of light in m/s (src/lib/constants: `export const C = 299792458`). -/
def C : ℝ := 299792458

/-- Free-space wavelength (m) for a given frequency (Hz). -/
noncomputable def wavelength (frHz : ℝ) : ℝ := C / frHz

/-- Free-space wave number k0 = 2*pi/lambda0 (1/m). -/
noncomputable def k0 (frHz : ℝ) : ℝ := (2 * Real.pi * frHz) / C

/-- Composite Simpson rule from src/lib/integrate.ts: if `n` is odd it is
incremented; step `h=(b-a)/n`; the loop `for (i = 1; i < n; i++)` adds
`2*f(x)` at even `i` and `4*f(x)` at odd `i`; result `(h/3)*sum`.
The loop is rendered as a sum over `i+1` for `i ∈ range (n-1)`,
i.e. exactly the indices `1..n-1`. -/
noncomputable def simpson (f : ℝ → ℝ) (a b : ℝ) (n : ℕ) : ℝ :=
  let m := if n % 2 ≠ 0 then n + 1 else n
  let h := (b - a) / m
  let sum := f a + f b +
    ∑ i ∈ Finset.range (m - 1),
      (if (i + 1) % 2 = 0 then 2 else 4) * f (a + (i + 1 : ℕ) * h)
  (h / 3) * sum

/-- Nested 2-D Simpson rule from src/lib/integrate.ts: outer Simpson
weights `1/4/2/.../4/1` over `nOuter+1` samples, inner 1-D Simpson at each
outer sample, scaled by `hOuter/3`. -/
noncomputable def simpson2D (f : ℝ → ℝ → ℝ) (a b c d : ℝ) (nOuter nInner : ℕ) : ℝ :=
  let hOuter := (b - a) / nOuter
  let total :=
    ∑ i ∈ Finset.range (nOuter + 1),
      (if i = 0 ∨ i = nOuter then 1 else if i % 2 = 0 then 2 else 4) *
        simpson (fun y => f (a + (i : ℕ) * hOuter) y) c d nInner
  (hOuter / 3) * total

/-- The summation loop of `besselJ` (src/lib/bessel.ts):
`for (k = 0; k < 120; k++) { sum += term; term *= -(x2*x2)/((k+1)(n+k+1));
if (|term| < 1e-16*|sum|) break }`.  `c` is `x2*x2`; the fuel argument is
the remaining iteration count (the source runs at most 120 iterations). -/
noncomputable def besselLoop (c : ℝ) (n : ℕ) : ℕ → ℕ → ℝ → ℝ → ℝ
  | 0, _, sum, _ => sum
  | fuel + 1, k, sum, term =>
      let sum' := sum + term
      let term' := term * (-c / (((k : ℝ) + 1) * ((n : ℝ) + (k : ℝ) + 1)))
      if |term'| < 1e-16 * |sum'| then sum' else besselLoop c n fuel (k + 1) sum' term'

/-- Bessel J_n(x) from src/lib/bessel.ts.  The order is a natural number
(the source returns NaN for negative or non-integer `n`, which the typing
makes unrepresentable); the finite-`x` check is vacuous over ℝ, as is the
`!Number.isFinite(term)` clamp, both noted here as comments.
The initial term is `Math.pow(x2, n) / (factorial(n) * factorial(n))`,
overridden to exactly 1 when `n = 0`. -/
noncomputable def besselJ (n : ℕ) (x : ℝ) : ℝ :=
  -- if (!Number.isFinite(x)) return NaN  -- vacuous over ℝ
  let x2 := x / 2
  let term : ℝ := if n = 0 then 1 else x2 ^ n / ((n.factorial : ℝ) * (n.factorial : ℝ))
  -- if (!Number.isFinite(term)) return 0  -- vacuous over ℝ
  besselLoop (x2 * x2) n 120 0 0 term

noncomputable def besselJ0 (x : ℝ) : ℝ := besselJ 0 x

noncomputable def besselJ2 (x : ℝ) : ℝ := besselJ 2 x

/-- The `safeBesselJ0` wrapper returns `besselJ0 x` when finite and `0`
otherwise; over ℝ every value is finite, so it is the identity wrapper. -/
noncomputable def safeBesselJ0 (x : ℝ) : ℝ := besselJ0 x

/-- Reference series for claim C4, following the claim's words: direct
summation of the power series with k-th term `(-1)^k/(k! (n+k)!) (x/2)^(n+2k)`
with the same truncation rule as the source (at most 120 terms, early stop
once a term's magnitude falls below 1e-16 times the running sum's).
Its initial term is the series' k = 0 term `(x/2)^n / (0! * n!)`, and each
later term follows by the same ratio `-(x/2)^2/((k+1)(n+k+1))` that the
source uses, so `besselLoop` generates exactly the series' partial sums. -/
noncomputable def besselSeriesSpec (n : ℕ) (x : ℝ) : ℝ :=
  let x2 := x / 2
  besselLoop (x2 * x2) n 120 0 0 (x2 ^ n / (n.factorial : ℝ))

/-! ## Rectangular patch model (Balanis Ch. 14.2) -/

structure RectangularPatchInput where
  frHz : ℝ
  epsilonR : ℝ
  hM : ℝ

structure RectangularPatchInputReverse where
  WM : ℝ
  LM : ℝ
  epsilonR : ℝ
  hM : ℝ

/-- Result record of the rectangular solver.  In the source,
`y0_50ohm : number | null` is an optional field (here `Option ℝ`), and the
two directivity fields are numbers that the solver sets to NaN when the
directivity integral degenerates; in this exact-real model that
not-a-number marker is rendered as `none`. -/
structure RectangularPatchResult where
  W : ℝ
  L : ℝ
  L_eff : ℝ
  epsilonReff : ℝ
  G1 : ℝ
  G12 : ℝ
  RinAtEdge : ℝ
  y0_50ohm : Option ℝ
  directivityD : Option ℝ
  directivityDBi : Option ℝ
  lambda0 : ℝ

/-- Effective relative permittivity (source line 46-48). -/
noncomputable def effectiveEpsilon (epsilonR W h : ℝ) : ℝ :=
  (epsilonR + 1) / 2 + ((epsilonR - 1) / 2) * 1 / Real.sqrt (1 + 12 * h / W)

/-- Patch width `W = (c/(2 fr)) * sqrt(2/(er+1))`. -/
noncomputable def rectW (frHz epsilonR : ℝ) : ℝ :=
  (C / (2 * frHz)) * Real.sqrt (2 / (epsilonR + 1))

/-- Effective permittivity at the solver's width. -/
noncomputable def rectEe (frHz epsilonR hM : ℝ) : ℝ :=
  effectiveEpsilon epsilonR (rectW frHz epsilonR) hM

/-- Fringing extension `ΔL = 0.824 h (num/den)`, the expression that the
forward path subtracts in `L` and the reverse path calls `deltaL`. -/
noncomputable def deltaL (ee W h : ℝ) : ℝ :=
  0.824 * h * (((ee + 0.3) * (W / h + 0.264)) / ((ee - 0.258) * (W / h + 0.8)))

/-- Fringing-corrected patch length (source lines 64-67). -/
noncomputable def rectL (frHz epsilonR hM : ℝ) : ℝ :=
  C / (2 * frHz * Real.sqrt (rectEe frHz epsilonR hM)) -
    deltaL (rectEe frHz epsilonR hM) (rectW frHz epsilonR) hM

/-- Effective (half-wave resonant) length. -/
noncomputable def rectLeff (frHz epsilonR hM : ℝ) : ℝ :=
  C / (2 * frHz * Real.sqrt (rectEe frHz epsilonR hM))

/-- G1 integrand with the removable singularity at `cos θ = 0` handled by
the `|cos θ| < 1e-12` limit branch (source lines 74-83). -/
noncomputable def integrandG1 (k0Val W theta : ℝ) : ℝ :=
  let cosT := Real.cos theta
  let sinT := Real.sin theta
  if |cosT| < 1e-12 then ((k0Val * W) / 2) ^ 2 * sinT ^ 3
  else (Real.sin ((k0Val * W / 2) * cosT) / cosT) ^ 2 * sinT ^ 3

/-- G12 integrand: the G1 integrand multiplied by `J0(k0 L sin θ)`
(source lines 87-98). -/
noncomputable def integrandG12 (k0Val W L theta : ℝ) : ℝ :=
  let cosT := Real.cos theta
  let sinT := Real.sin theta
  let j0Val := safeBesselJ0 (k0Val * L * sinT)
  if |cosT| < 1e-12 then ((k0Val * W) / 2) ^ 2 * j0Val * sinT ^ 3
  else (Real.sin ((k0Val * W / 2) * cosT) / cosT) ^ 2 * j0Val * sinT ^ 3

/-- Single-slot conductance `G1` (source line 84). -/
noncomputable def rectG1 (frHz epsilonR : ℝ) : ℝ :=
  (1 / (120 * Real.pi * Real.pi)) *
    simpson (integrandG1 (k0 frHz) (rectW frHz epsilonR)) 0 Real.pi 512

/-- Mutual conductance `G12` (source line 99). -/
noncomputable def rectG12 (frHz epsilonR hM : ℝ) : ℝ :=
  (1 / (120 * Real.pi * Real.pi)) *
    simpson (integrandG12 (k0 frHz) (rectW frHz epsilonR) (rectL frHz epsilonR hM)) 0 Real.pi 512

/-- Directivity integrand (source lines 116-129). -/
noncomputable def integrandI1 (k0Val W Leff theta phi : ℝ) : ℝ :=
  let cosT := Real.cos theta
  let sinT := Real.sin theta
  let factor :=
    if |cosT| < 1e-12 then ((k0Val * W) / 2) ^ 2
    else (Real.sin ((k0Val * W / 2) * cosT) / cosT) ^ 2
  let inner := (k0Val * Leff / 2) * sinT * Real.sin phi
  factor * sinT ^ 3 * Real.cos inner ^ 2

/-- Directivity double integral `I1` (source line 130). -/
noncomputable def rectI1 (frHz epsilonR hM : ℝ) : ℝ :=
  simpson2D (integrandI1 (k0 frHz) (rectW frHz epsilonR) (rectLeff frHz epsilonR hM))
    0 Real.pi 0 Real.pi 128 128

/-- The 50 Ω feed-inset computation (source lines 107-113): `y0` is set only
when `50 ≤ RinAtEdge < 1e10` and the ratio `50/RinAtEdge` lies in `[0,1]`. -/
noncomputable def rectY0 (L Rin : ℝ) : Option ℝ :=
  if 50 ≤ Rin ∧ Rin < 1e10 then
    let ratio := 50 / Rin
    if ratio ≤ 1 ∧ 0 ≤ ratio then some ((L / Real.pi) * Real.arccos (Real.sqrt ratio))
    else none
  else none

/-- The tail of the rectangular forward solver, after the widths, lengths
and the three integrals have been computed (source lines 101-154): check
`G1+G12` (the finiteness checks are vacuous over ℝ), build `RinAtEdge` and
the feed inset, then either a full record or — when `I1` is non-finite or
`≤ 0` — a partial record with the directivity fields set to the
not-a-number marker. -/
noncomputable def rectFinish (W L L_eff ee lam G1 G12 I1 : ℝ) : Option RectangularPatchResult :=
  -- if (!Number.isFinite(G1) || !Number.isFinite(G12) || Gsum <= 0) -- finiteness vacuous over ℝ
  if G1 + G12 ≤ 0 then none
  else
    let RinAtEdge := 1 / (2 * (G1 + G12))
    let y0 := rectY0 L RinAtEdge
    -- if (!Number.isFinite(I1) || I1 <= 0)  -- finiteness vacuous over ℝ
    if I1 ≤ 0 then some ⟨W, L, L_eff, ee, G1, G12, RinAtEdge, y0, none, none, lam⟩
    else
      let D := ((2 * Real.pi * W) / lam) ^ 2 * (Real.pi / I1)
      some ⟨W, L, L_eff, ee, G1, G12, RinAtEdge, y0, some D,
        some (10 * Real.logb 10 D), lam⟩

/-- Rectangular forward solver (source lines 53-155). -/
noncomputable def computeRectangularPatch (input : RectangularPatchInput) :
    Option RectangularPatchResult :=
  if input.frHz ≤ 0 ∨ input.epsilonR < 1 ∨ input.hM ≤ 0 then none
  else
    rectFinish (rectW input.frHz input.epsilonR)
      (rectL input.frHz input.epsilonR input.hM)
      (rectLeff input.frHz input.epsilonR input.hM)
      (rectEe input.frHz input.epsilonR input.hM)
      (wavelength input.frHz)
      (rectG1 input.frHz input.epsilonR)
      (rectG12 input.frHz input.epsilonR input.hM)
      (rectI1 input.frHz input.epsilonR input.hM)

/-- Rectangular reverse solver (source lines 161-175): algebraic inversion
`fr = c/(2 sqrt(ee) (L + ΔL))` followed by a forward re-run. -/
noncomputable def computeRectangularPatchReverse (input : RectangularPatchInputReverse) :
    Option (ℝ × RectangularPatchResult) :=
  if input.WM ≤ 0 ∨ input.LM ≤ 0 ∨ input.epsilonR < 1 ∨ input.hM ≤ 0 then none
  else
    let ee := effectiveEpsilon input.epsilonR input.WM input.hM
    let dL := deltaL ee input.WM input.hM
    let frHz := C / (2 * Real.sqrt ee * (input.LM + dL))
    -- if (!Number.isFinite(frHz) || frHz <= 0) return null -- finiteness vacuous over ℝ
    if frHz ≤ 0 then none
    else (computeRectangularPatch ⟨frHz, input.epsilonR, input.hM⟩).map (fun r => (frHz, r))

/-! ## Circular patch model (Balanis Ch. 14.3) -/

structure CircularPatchInput where
  frHz : ℝ
  epsilonR : ℝ
  hM : ℝ

structure CircularPatchInputReverse where
  aM : ℝ
  epsilonR : ℝ
  hM : ℝ

/-- Result record of the circular solver; as in the rectangular record the
NaN directivity marker is rendered as `none`. -/
structure CircularPatchResult where
  a : ℝ
  a_e : ℝ
  directivityD : Option ℝ
  directivityDBi : Option ℝ
  lambda0 : ℝ

noncomputable def safeBesselJ2 (x : ℝ) : ℝ := besselJ2 x

/-- `F = 8.791e7 / (fr sqrt(er))` (source lines 220-222). -/
noncomputable def F (frHz epsilonR : ℝ) : ℝ :=
  8.791e7 / (frHz * Real.sqrt epsilonR)

/-- Physical radius `a = F / sqrt(1 + (2h)/(π er F) ln(π F/(2h) + 1.7726))`. -/
noncomputable def physicalRadius (FVal h epsilonR : ℝ) : ℝ :=
  let lnArg := (Real.pi * FVal) / (2 * h) + 1.7726
  let den := 1 + (2 * h) / (Real.pi * epsilonR * FVal) * Real.log lnArg
  FVal / Real.sqrt den

/-- Effective radius `a_e = a sqrt(1 + (2h)/(π a er) ln(π a/(2h) + 1.7726))`. -/
noncomputable def effectiveRadius (a h epsilonR : ℝ) : ℝ :=
  let lnArg := (Real.pi * a) / (2 * h) + 1.7726
  let factor := 1 + (2 * h) / (Real.pi * a * epsilonR) * Real.log lnArg
  a * Real.sqrt factor

/-- Radiating-conductance integrand (source lines 262-269). -/
noncomputable def circIntegrand (k0Val a_e theta : ℝ) : ℝ :=
  let sinT := Real.sin theta
  let cosT := Real.cos theta
  let x := k0Val * a_e * sinT
  let J02p := safeBesselJ0 x - safeBesselJ2 x
  let J02 := safeBesselJ0 x + safeBesselJ2 x
  (J02p * J02p + cosT * cosT * J02 * J02) * sinT

/-- Circular forward solver (source lines 250-293): the guard rejects
invalid input; past it the solver always returns a record — a partial one
(directivity marked not-a-number, here `none`) when `G_rad` is non-finite
or `≤ 0`, a full one otherwise. -/
noncomputable def computeCircularPatch (input : CircularPatchInput) :
    Option CircularPatchResult :=
  if input.frHz ≤ 0 ∨ input.epsilonR < 1 ∨ input.hM ≤ 0 then none
  else
    let lambda0 := wavelength input.frHz
    let k0Val := k0 input.frHz
    let FVal := F input.frHz input.epsilonR
    let a := physicalRadius FVal input.hM input.epsilonR
    let a_e := effectiveRadius a input.hM input.epsilonR
    let integral := simpson (circIntegrand k0Val a_e) 0 (Real.pi / 2) 512
    let G_rad := (k0Val * a_e) ^ 2 / 480 * integral
    -- if (!Number.isFinite(G_rad) || G_rad <= 0)  -- finiteness vacuous over ℝ
    if G_rad ≤ 0 then some ⟨a, a_e, none, none, lambda0⟩
    else
      let D0 := (k0Val * a_e) ^ 2 / (120 * G_rad)
      some ⟨a, a_e, some D0, some (10 * Real.logb 10 D0), lambda0⟩

/-- The `while (physicalRadius(FLow) >= aM && FLow > 1e-7) FLow *= 0.5`
expansion loop.  The fuel argument only bounds the iteration count; the
reverse solver calls it with fuel 100, and since the loop halves `FLow`
from 1e-5 and its guard requires `FLow > 1e-7`, it can run at most 7 times,
so the bound is never reached. -/
noncomputable def expandLow (aM h er : ℝ) : ℕ → ℝ → ℝ
  | 0, FLow => FLow
  | fuel + 1, FLow =>
      if aM ≤ physicalRadius FLow h er ∧ 1e-7 < FLow then
        expandLow aM h er fuel (FLow * 0.5)
      else FLow

/-- The `while (physicalRadius(FHigh) <= aM && FHigh < 0.5) FHigh *= 2`
expansion loop; with fuel 100 from the start value 0.1 the guard
`FHigh < 0.5` fails after at most 3 doublings, so the bound is never
reached. -/
noncomputable def expandHigh (aM h er : ℝ) : ℕ → ℝ → ℝ
  | 0, FHigh => FHigh
  | fuel + 1, FHigh =>
      if physicalRadius FHigh h er ≤ aM ∧ FHigh < 0.5 then
        expandHigh aM h er fuel (FHigh * 2)
      else FHigh

/-- The bisection loop of the circular reverse solver (source lines
312-327), with fuel exactly the source's 80-iteration budget: each
iteration tests the relative-tolerance early exit and otherwise halves the
bracket; when the fuel runs out the final midpoint is used as the
best-effort answer. -/
noncomputable def bisect (aM er h : ℝ) : ℕ → ℝ → ℝ → Option (ℝ × CircularPatchResult)
  | 0, FLow, FHigh =>
      let frHz := 8.791e7 / ((FLow + FHigh) / 2 * Real.sqrt er)
      (computeCircularPatch ⟨frHz, er, h⟩).map (fun r => (frHz, r))
  | fuel + 1, FLow, FHigh =>
      let FMid := (FLow + FHigh) / 2
      let aMid := physicalRadius FMid h er
      if |aMid - aM| < 1e-12 * aM then
        let frHz := 8.791e7 / (FMid * Real.sqrt er)
        (computeCircularPatch ⟨frHz, er, h⟩).map (fun r => (frHz, r))
      else if aMid < aM then bisect aM er h fuel FMid FHigh
      else bisect aM er h fuel FLow FMid

/-- Circular reverse solver (source lines 300-328): guard, bracket
expansion, bracket validity check, then bisection. -/
noncomputable def computeCircularPatchReverse (input : CircularPatchInputReverse) :
    Option (ℝ × CircularPatchResult) :=
  if input.aM ≤ 0 ∨ input.epsilonR < 1 ∨ input.hM ≤ 0 then none
  else
    let FLow := expandLow input.aM input.hM input.epsilonR 100 1e-5
    let FHigh := expandHigh input.aM input.hM input.epsilonR 100 0.1
    if input.aM < physicalRadius FLow input.hM input.epsilonR ∨
        physicalRadius FHigh input.hM input.epsilonR < input.aM then none
    else bisect input.aM input.epsilonR input.hM 80 FLow FHigh

end MS

/-! ## JavaScript number model

The exact-real model above cannot express the claims that are about
JavaScript not-a-number inputs, so the circular solver is re-embedded here
over a faithful model of a JavaScript `number`: a finite real, NaN, or a
signed infinity (the distinction between +0 and -0 is not modelled; no
claim depends on it).  Comparisons involving NaN are false, and arithmetic
involving NaN yields NaN, exactly as in IEEE-754 / JavaScript. -/

namespace MS.JS

inductive JSNum where
  | num : ℝ → JSNum
  | nan : JSNum
  | posInf : JSNum
  | negInf : JSNum

open JSNum

noncomputable def jsAdd : JSNum → JSNum → JSNum
  | nan, _ => nan
  | _, nan => nan
  | num x, num y => num (x + y)
  | posInf, negInf => nan
  | negInf, posInf => nan
  | posInf, _ => posInf
  | _, posInf => posInf
  | negInf, _ => negInf
  | _, negInf => negInf

noncomputable def jsNeg : JSNum → JSNum
  | num x => num (-x)
  | nan => nan
  | posInf => negInf
  | negInf => posInf

noncomputable def jsSub (a b : JSNum) : JSNum := jsAdd a (jsNeg b)

noncomputable def jsMul : JSNum → JSNum → JSNum
  | nan, _ => nan
  | _, nan => nan
  | num x, num y => num (x * y)
  | num x, posInf => if x = 0 then nan else if 0 < x then posInf else negInf
  | posInf, num x => if x = 0 then nan else if 0 < x then posInf else negInf
  | num x, negInf => if x = 0 then nan else if 0 < x then negInf else posInf
  | negInf, num x => if x = 0 then nan else if 0 < x then negInf else posInf
  | posInf, posInf => posInf
  | posInf, negInf => negInf
  | negInf, posInf => negInf
  | negInf, negInf => posInf

noncomputable def jsDiv : JSNum → JSNum → JSNum
  | nan, _ => nan
  | _, nan => nan
  | num x, num y =>
      if y = 0 then (if x = 0 then nan else if 0 < x then posInf else negInf)
      else num (x / y)
  | num _, posInf => num 0
  | num _, negInf => num 0
  | posInf, num y => if 0 ≤ y then posInf else negInf
  | negInf, num y => if 0 ≤ y then negInf else posInf
  | _, posInf => nan
  | _, negInf => nan

noncomputable instance : Add JSNum := ⟨jsAdd⟩

noncomputable instance : Sub JSNum := ⟨jsSub⟩

noncomputable instance : Mul JSNum := ⟨jsMul⟩

noncomputable instance : Div JSNum := ⟨jsDiv⟩

/-- `Math.sqrt`: NaN for negative or NaN argument. -/
noncomputable def jsSqrt : JSNum → JSNum
  | num x => if x < 0 then nan else num (Real.sqrt x)
  | nan => nan
  | posInf => posInf
  | negInf => nan

/-- `Math.log`: NaN below zero, -Infinity at zero. -/
noncomputable def jsLog : JSNum → JSNum
  | num x => if x < 0 then nan else if x = 0 then negInf else num (Real.log x)
  | nan => nan
  | posInf => posInf
  | negInf => nan

/-- `Math.log10`. -/
noncomputable def jsLog10 : JSNum → JSNum
  | num x => if x < 0 then nan else if x = 0 then negInf else num (Real.logb 10 x)
  | nan => nan
  | posInf => posInf
  | negInf => nan

/-- `Math.sin`: NaN at infinities and NaN. -/
noncomputable def jsSin : JSNum → JSNum
  | num x => num (Real.sin x)
  | _ => nan

/-- `Math.cos`: NaN at infinities and NaN. -/
noncomputable def jsCos : JSNum → JSNum
  | num x => num (Real.cos x)
  | _ => nan

/-- `Math.abs`. -/
noncomputable def jsAbs : JSNum → JSNum
  | num x => num |x|
  | nan => nan
  | posInf => posInf
  | negInf => posInf

/-- The `**` / `Math.pow` operator at a natural exponent; `x ** 0` is 1
even for NaN `x`, as in JavaScript. -/
noncomputable def jsPow (b : JSNum) : ℕ → JSNum
  | 0 => num 1
  | e + 1 => jsMul (jsPow b e) b

/-- The `<=` comparison: false whenever either side is NaN. -/
noncomputable def jsLe : JSNum → JSNum → Bool
  | nan, _ => false
  | _, nan => false
  | num x, num y => if x ≤ y then true else false
  | negInf, _ => true
  | _, posInf => true
  | posInf, _ => false
  | _, negInf => false

/-- The `<` comparison: false whenever either side is NaN. -/
noncomputable def jsLt : JSNum → JSNum → Bool
  | nan, _ => false
  | _, nan => false
  | num x, num y => if x < y then true else false
  | posInf, _ => false
  | negInf, negInf => false
  | negInf, _ => true
  | _, posInf => true
  | _, negInf => false

/-- `Number.isFinite`. -/
def jsIsFinite : JSNum → Bool
  | num _ => true
  | _ => false

noncomputable def jsPi : JSNum := num Real.pi

noncomputable def jsC : JSNum := num 299792458

/-- Free-space wavelength over JS numbers. -/
noncomputable def wavelength (frHz : JSNum) : JSNum := jsC / frHz

/-- Free-space wave number over JS numbers. -/
noncomputable def k0 (frHz : JSNum) : JSNum := (num 2 * jsPi * frHz) / jsC

/-- `besselJ`'s inner loop over JS numbers (src/lib/bessel.ts lines 23-27). -/
noncomputable def besselLoop (c : JSNum) (n : ℕ) : ℕ → ℕ → JSNum → JSNum → JSNum
  | 0, _, sum, _ => sum
  | fuel + 1, k, sum, term =>
      let sum' := sum + term
      let term' := term * (jsNeg c / (num ((k : ℝ) + 1) * num ((n : ℝ) + (k : ℝ) + 1)))
      if jsLt (jsAbs term') (num 1e-16 * jsAbs sum') then sum'
      else besselLoop c n fuel (k + 1) sum' term'

/-- `besselJ` over JS numbers: non-finite `x` yields NaN; a non-finite
initial term yields 0; otherwise the 120-term loop runs. -/
noncomputable def besselJ (n : ℕ) (x : JSNum) : JSNum :=
  if jsIsFinite x = false then nan
  else
    let x2 := x / num 2
    let term := if n = 0 then num 1
      else jsPow x2 n / (num (n.factorial : ℝ) * num (n.factorial : ℝ))
    if jsIsFinite term = false then num 0
    else besselLoop (x2 * x2) n 120 0 (num 0) term

noncomputable def besselJ0 (x : JSNum) : JSNum := besselJ 0 x

noncomputable def besselJ2 (x : JSNum) : JSNum := besselJ 2 x

noncomputable def safeBesselJ0 (x : JSNum) : JSNum :=
  let v := besselJ0 x
  if jsIsFinite v then v else num 0

noncomputable def safeBesselJ2 (x : JSNum) : JSNum :=
  let v := besselJ2 x
  if jsIsFinite v then v else num 0

/-- Simpson's rule over JS numbers; the interior loop
`for (i = 1; i < n; i++)` is a left fold over `[1, ..., n-1]` in the
source's accumulation order. -/
noncomputable def simpson (f : JSNum → JSNum) (a b : JSNum) (n : ℕ) : JSNum :=
  let m := if n % 2 ≠ 0 then n + 1 else n
  let h := (b - a) / num (m : ℝ)
  let sum := (List.range' 1 (m - 1)).foldl
    (fun acc i =>
      acc + (if i % 2 = 0 then num 2 else num 4) * f (a + num (i : ℝ) * h))
    (f a + f b)
  (h / num 3) * sum

noncomputable def F (frHz epsilonR : JSNum) : JSNum :=
  num 8.791e7 / (frHz * jsSqrt epsilonR)

noncomputable def physicalRadius (FVal h epsilonR : JSNum) : JSNum :=
  let lnArg := (jsPi * FVal) / (num 2 * h) + num 1.7726
  let den := num 1 + (num 2 * h) / (jsPi * epsilonR * FVal) * jsLog lnArg
  FVal / jsSqrt den

noncomputable def effectiveRadius (a h epsilonR : JSNum) : JSNum :=
  let lnArg := (jsPi * a) / (num 2 * h) + num 1.7726
  let factor := num 1 + (num 2 * h) / (jsPi * a * epsilonR) * jsLog lnArg
  a * jsSqrt factor

structure CircularPatchResult where
  a : JSNum
  a_e : JSNum
  directivityD : JSNum
  directivityDBi : JSNum
  lambda0 : JSNum

/-- Circular forward solver over JS numbers (source lines 250-293),
including the NaN-defeating guard `frHz <= 0 || epsilonR < 1 || hM <= 0`
exactly as the source writes it. -/
noncomputable def computeCircularPatch (frHz epsilonR hM : JSNum) :
    Option CircularPatchResult :=
  if (jsLe frHz (num 0) || jsLt epsilonR (num 1) || jsLe hM (num 0)) = true then none
  else
    let lambda0 := wavelength frHz
    let k0Val := k0 frHz
    let FVal := F frHz epsilonR
    let a := physicalRadius FVal hM epsilonR
    let a_e := effectiveRadius a hM epsilonR
    let integrand := fun theta =>
      let sinT := jsSin theta
      let cosT := jsCos theta
      let x := k0Val * a_e * sinT
      let J02p := safeBesselJ0 x - safeBesselJ2 x
      let J02 := safeBesselJ0 x + safeBesselJ2 x
      (J02p * J02p + cosT * cosT * J02 * J02) * sinT
    let integral := simpson integrand (num 0) (jsPi / num 2) 512
    let G_rad := jsPow (k0Val * a_e) 2 / num 480 * integral
    if (!jsIsFinite G_rad || jsLe G_rad (num 0)) = true then
      some ⟨a, a_e, nan, nan, lambda0⟩
    else
      let D0 := jsPow (k0Val * a_e) 2 / (num 120 * G_rad)
      some ⟨a, a_e, D0, num 10 * jsLog10 D0, lambda0⟩

end MS.JS

/-! ## Helper lemmas -/

namespace MS

/-- When the inner-loop stop condition fires on the very first iteration,
`besselLoop` returns the single added term. -/
lemma besselLoop_stop (c : ℝ) (n : ℕ) (fuel k : ℕ) (sum term : ℝ)
    (h : |term * (-c / (((k : ℝ) + 1) * ((n : ℝ) + (k : ℝ) + 1)))| < 1e-16 * |sum + term|) :
    besselLoop c n (fuel + 1) k sum term = sum + term := by
  simp only [besselLoop]
  rw [if_pos h]

/-- `besselLoop` is homogeneous: scaling both accumulator and current term
by a positive constant scales the result, because the stop test compares
magnitudes whose common scale factor cancels. -/
lemma besselLoop_smul (c : ℝ) (n : ℕ) (s : ℝ) (hs : 0 < s) :
    ∀ (fuel k : ℕ) (sum term : ℝ),
      besselLoop c n fuel k (s * sum) (s * term) = s * besselLoop c n fuel k sum term := by
  intro fuel
  induction fuel with
  | zero => intro k sum term; rfl
  | succ fuel ih =>
      intro k sum term
      simp only [besselLoop]
      set r := -c / (((k : ℝ) + 1) * ((n : ℝ) + (k : ℝ) + 1)) with hr
      have hiff : |s * term * r| < 1e-16 * |s * sum + s * term| ↔
          |term * r| < 1e-16 * |sum + term| := by
        rw [show s * term * r = s * (term * r) by ring,
          show s * sum + s * term = s * (sum + term) by ring,
          abs_mul s (term * r), abs_mul s (sum + term), abs_of_pos hs,
          show 1e-16 * (s * |sum + term|) = s * (1e-16 * |sum + term|) by ring]
        exact mul_lt_mul_left hs
      by_cases hcond : |term * r| < 1e-16 * |sum + term|
      · rw [if_pos (hiff.mpr hcond), if_pos hcond]
        ring
      · rw [if_neg (fun hx => hcond (hiff.mp hx)), if_neg hcond,
          show s * sum + s * term = s * (sum + term) by ring,
          show s * term * r = s * (term * r) by ring]
        exact ih (k + 1) (sum + term) (term * r)

lemma sqrt_one_add_lt (h W : ℝ) (hh : 0 < h) (hW : 0 < W) :
    1 < Real.sqrt (1 + 12 * h / W) := by
  have h1 : Real.sqrt 1 < Real.sqrt (1 + 12 * h / W) := by
    apply Real.sqrt_lt_sqrt (by norm_num)
    have : 0 < 12 * h / W := by positivity
    linarith
  rwa [Real.sqrt_one] at h1

lemma effectiveEpsilon_bounds (er W h : ℝ) (her : 1 ≤ er) (hh : 0 < h) (hW : 0 < W) :
    (er + 1) / 2 ≤ effectiveEpsilon er W h ∧ effectiveEpsilon er W h ≤ er := by
  have hs := sqrt_one_add_lt h W hh hW
  have hspos : 0 < Real.sqrt (1 + 12 * h / W) := lt_trans one_pos hs
  unfold effectiveEpsilon
  constructor
  · have hterm : 0 ≤ (er - 1) / 2 * 1 / Real.sqrt (1 + 12 * h / W) :=
      div_nonneg (by linarith) (le_of_lt hspos)
    linarith
  · have hle : (er - 1) / 2 * 1 / Real.sqrt (1 + 12 * h / W) ≤ (er - 1) / 2 := by
      rw [mul_one]
      exact div_le_self (by linarith) (le_of_lt hs)
    linarith

lemma effectiveEpsilon_lt (er W h : ℝ) (her : 1 < er) (hh : 0 < h) (hW : 0 < W) :
    effectiveEpsilon er W h < er := by
  have hs := sqrt_one_add_lt h W hh hW
  unfold effectiveEpsilon
  have hlt : (er - 1) / 2 * 1 / Real.sqrt (1 + 12 * h / W) < (er - 1) / 2 := by
    rw [mul_one]
    exact div_lt_self (by linarith) hs
  linarith

lemma simpson_weight_sum (k : ℕ) (hk : 1 ≤ k) :
    (∑ i ∈ Finset.range (2 * k - 1), (if (i + 1) % 2 = 0 then (2:ℝ) else 4))
      = 6 * (k:ℝ) - 2 := by
  induction k, hk using Nat.le_induction with
  | base => norm_num
  | succ k hk ih =>
      have hidx : 2 * (k + 1) - 1 = (2 * k - 1) + 1 + 1 := by omega
      rw [hidx, Finset.sum_range_succ, Finset.sum_range_succ, ih,
        if_pos (show ((2 * k - 1 : ℕ) + 1) % 2 = 0 by omega),
        if_neg (show ¬(((2 * k - 1 : ℕ) + 1 + 1) % 2 = 0) by omega)]
      push_cast
      ring

lemma simpson_weight_sq_sum (k : ℕ) (hk : 1 ≤ k) :
    (∑ i ∈ Finset.range (2 * k - 1),
        (if (i + 1) % 2 = 0 then (2:ℝ) else 4) * ((i : ℝ) + 1) ^ 2)
      = 8 * (k:ℝ) ^ 3 - 4 * (k:ℝ) ^ 2 := by
  induction k, hk using Nat.le_induction with
  | base => norm_num
  | succ k hk ih =>
      have hidx : 2 * (k + 1) - 1 = (2 * k - 1) + 1 + 1 := by omega
      rw [hidx, Finset.sum_range_succ, Finset.sum_range_succ, ih,
        if_pos (show ((2 * k - 1 : ℕ) + 1) % 2 = 0 by omega),
        if_neg (show ¬(((2 * k - 1 : ℕ) + 1 + 1) % 2 = 0) by omega)]
      have h2k : ((2 * k - 1 : ℕ) : ℝ) = 2 * (k:ℝ) - 1 := by
        rw [Nat.cast_sub (by omega)]
        push_cast
        ring
      push_cast [h2k]
      ring

/-! ## Claim theorems (first group) -/

/-- C5: for every `epsilonR ≥ 1`, `h > 0` and `W > 0`,
`effectiveEpsilon epsilonR W h` lies in the interval `[1, epsilonR]`, and is
strictly below `epsilonR` whenever `epsilonR > 1` (so equality with
`epsilonR` can only occur in the limit `h/W → 0`). -/
theorem C5_effectiveEpsilon_range (er W h : ℝ) (her : 1 ≤ er) (hh : 0 < h) (hW : 0 < W) :
    1 ≤ effectiveEpsilon er W h ∧ effectiveEpsilon er W h ≤ er ∧
      (1 < er → effectiveEpsilon er W h < er) := by
  obtain ⟨hlo, hhi⟩ := effectiveEpsilon_bounds er W h her hh hW
  exact ⟨by linarith, hhi, fun h1 => effectiveEpsilon_lt er W h h1 hh hW⟩

theorem C5_effectiveEpsilon_range_witness :
    (1 ≤ (4.4:ℝ)) ∧ (0 < (1.6e-3:ℝ)) ∧ (0 < (3.8e-2:ℝ)) ∧
      (1 ≤ effectiveEpsilon 4.4 3.8e-2 1.6e-3 ∧
        effectiveEpsilon 4.4 3.8e-2 1.6e-3 ≤ 4.4 ∧
        (1 < (4.4:ℝ) → effectiveEpsilon 4.4 3.8e-2 1.6e-3 < 4.4)) :=
  ⟨by norm_num, by norm_num, by norm_num,
    C5_effectiveEpsilon_range 4.4 3.8e-2 1.6e-3 (by norm_num) (by norm_num) (by norm_num)⟩

/-- C9: Simpson exactness on low-degree polynomials — for every even
`n ≥ 2`, `simpson (fun _ => 1) 0 1 n = 1` and
`simpson (fun x => x^2) 0 1 n = 1/3`, exactly, over the exact reals. -/
theorem C9_simpson_exact (n : ℕ) (hn : 2 ≤ n) (heven : n % 2 = 0) :
    simpson (fun _ => (1:ℝ)) 0 1 n = 1 ∧ simpson (fun x => x ^ 2) 0 1 n = 1 / 3 := by
  obtain ⟨k, hk1, rfl⟩ : ∃ k, 1 ≤ k ∧ n = 2 * k := ⟨n / 2, by omega, by omega⟩
  have hkR : (1:ℝ) ≤ (k:ℝ) := by exact_mod_cast hk1
  have hkne : ((2 * k : ℕ) : ℝ) ≠ 0 := by
    push_cast
    nlinarith
  constructor
  · simp only [simpson]
    rw [if_neg (show ¬(2 * k % 2 ≠ 0) by omega)]
    have hsum := simpson_weight_sum k hk1
    simp only [mul_one] at hsum ⊢
    rw [hsum]
    push_cast at hkne ⊢
    field_simp
    ring
  · simp only [simpson]
    rw [if_neg (show ¬(2 * k % 2 ≠ 0) by omega)]
    have hcongr : ∀ i ∈ Finset.range (2 * k - 1),
        (if (i + 1) % 2 = 0 then (2:ℝ) else 4) *
          ((0:ℝ) + ((i + 1 : ℕ) : ℝ) * ((1 - 0) / ((2 * k : ℕ) : ℝ))) ^ 2
          = ((if (i + 1) % 2 = 0 then (2:ℝ) else 4) * ((i : ℝ) + 1) ^ 2) *
              ((1 - 0) / ((2 * k : ℕ) : ℝ)) ^ 2 := by
      intro i _
      push_cast
      ring
    rw [Finset.sum_congr rfl hcongr, ← Finset.sum_mul, simpson_weight_sq_sum k hk1]
    push_cast at hkne ⊢
    field_simp
    ring

theorem C9_simpson_exact_witness :
    (2 ≤ 4) ∧ (4 % 2 = 0) ∧
      (simpson (fun _ => (1:ℝ)) 0 1 4 = 1 ∧ simpson (fun x => x ^ 2) 0 1 4 = 1 / 3) :=
  ⟨by norm_num, by norm_num, C9_simpson_exact 4 (by norm_num) (by norm_num)⟩

/-- C2: the rectangular forward solver returns the explicit absence signal
(`none`, the model of the source's `null`; it never throws, being a total
function) exactly when the input is invalid (`frHz ≤ 0`, `epsilonR < 1`, or
`hM ≤ 0`) or the conductance sum `G1 + G12` is not positive (over the exact
reals the source's additional non-finiteness test is vacuous); for all
other inputs it returns a result record. -/
theorem C2_rect_none_iff (input : RectangularPatchInput) :
    computeRectangularPatch input = none ↔
      input.frHz ≤ 0 ∨ input.epsilonR < 1 ∨ input.hM ≤ 0 ∨
        rectG1 input.frHz input.epsilonR +
          rectG12 input.frHz input.epsilonR input.hM ≤ 0 := by
  simp only [computeRectangularPatch, rectFinish]
  split_ifs with hg hG hI
  · exact iff_of_true rfl (by tauto)
  · exact iff_of_true rfl (by tauto)
  · push_neg at hg
    obtain ⟨h1, h2, h3⟩ := hg
    exact iff_of_false (by simp) (by rintro (h | h | h | h) <;> linarith)
  · push_neg at hg
    obtain ⟨h1, h2, h3⟩ := hg
    exact iff_of_false (by simp) (by rintro (h | h | h | h) <;> linarith)

/-- C4: the source's `besselJ` does NOT equal the claimed truncated Bessel
power series: its initial term divides by `n!·n!` where the series' k = 0
term is `(x/2)^n/(0!·n!)`, so the whole early-stopped sum comes out scaled
by `1/n!` (the stop test is scale-invariant, so the truncation point is
unchanged).  First conjunct: `n! * besselJ n x` equals the reference
series for every order and argument — hence they agree only for `n ≤ 1`.
Second conjunct: a concrete disagreement at order 2, where the source
returns exactly half the series value. -/
theorem C4_besselJ_scaled_by_factorial :
    (∀ (n : ℕ) (x : ℝ), (n.factorial : ℝ) * besselJ n x = besselSeriesSpec n x) ∧
      besselJ 2 2e-8 ≠ besselSeriesSpec 2 2e-8 := by
  constructor
  · intro n x
    simp only [besselJ, besselSeriesSpec]
    have hfac : (0:ℝ) < (n.factorial : ℝ) := by exact_mod_cast n.factorial_pos
    rcases Nat.eq_zero_or_pos n with hn | hn
    · subst hn
      simp [Nat.factorial]
    · rw [if_neg (by omega : ¬(n = 0)),
        ← besselLoop_smul (x / 2 * (x / 2)) n (n.factorial : ℝ) hfac 120 0 0
          ((x / 2) ^ n / ((n.factorial : ℝ) * (n.factorial : ℝ))), mul_zero]
      congr 1
      field_simp
      ring
  · have hcode : besselJ 2 2e-8 = 2.5e-17 := by
      simp only [besselJ]
      rw [if_neg (by norm_num : ¬((2:ℕ) = 0)),
        show ((2e-8:ℝ) / 2) ^ (2:ℕ) / ((Nat.factorial 2 : ℝ) * (Nat.factorial 2 : ℝ)) = 2.5e-17 by
          norm_num [Nat.factorial],
        show (2e-8:ℝ) / 2 * ((2e-8:ℝ) / 2) = 1e-16 by norm_num,
        show (120:ℕ) = 119 + 1 from rfl, besselLoop_stop]
      · norm_num
      · push_cast
        rw [abs_of_nonpos (by norm_num), abs_of_nonneg (by norm_num)]
        norm_num
    have hspec : besselSeriesSpec 2 2e-8 = 5e-17 := by
      simp only [besselSeriesSpec]
      rw [show ((2e-8:ℝ) / 2) ^ (2:ℕ) / (Nat.factorial 2 : ℝ) = 5e-17 by
          norm_num [Nat.factorial],
        show (2e-8:ℝ) / 2 * ((2e-8:ℝ) / 2) = 1e-16 by norm_num,
        show (120:ℕ) = 119 + 1 from rfl, besselLoop_stop]
      · norm_num
      · push_cast
        rw [abs_of_nonpos (by norm_num), abs_of_nonneg (by norm_num)]
        norm_num
    rw [hcode, hspec]
    norm_num

lemma F_pos (fr er : ℝ) (h1 : 0 < fr) (h2 : 1 ≤ er) : 0 < F fr er := by
  unfold F
  exact div_pos (by norm_num) (mul_pos h1 (Real.sqrt_pos.mpr (by linarith)))

lemma physicalRadius_pos (FVal h er : ℝ) (hF : 0 < FVal) (hh : 0 < h) (her : 1 ≤ er) :
    0 < physicalRadius FVal h er := by
  unfold physicalRadius
  have hpi := Real.pi_pos
  have hq : 0 < (Real.pi * FVal) / (2 * h) := div_pos (mul_pos hpi hF) (by linarith)
  have hlog : 0 < Real.log ((Real.pi * FVal) / (2 * h) + 1.7726) :=
    Real.log_pos (by linarith)
  have hcoef : 0 < (2 * h) / (Real.pi * er * FVal) :=
    div_pos (by linarith) (mul_pos (mul_pos hpi (by linarith)) hF)
  have hden : 0 < 1 + (2 * h) / (Real.pi * er * FVal) *
      Real.log ((Real.pi * FVal) / (2 * h) + 1.7726) := by
    have := mul_pos hcoef hlog
    linarith
  exact div_pos hF (Real.sqrt_pos.mpr hden)

lemma effectiveRadius_ge (a h er : ℝ) (ha : 0 < a) (hh : 0 < h) (her : 1 ≤ er) :
    a ≤ effectiveRadius a h er := by
  unfold effectiveRadius
  have hpi := Real.pi_pos
  have hq : 0 < (Real.pi * a) / (2 * h) := div_pos (mul_pos hpi ha) (by linarith)
  have hlog : 0 < Real.log ((Real.pi * a) / (2 * h) + 1.7726) :=
    Real.log_pos (by linarith)
  have hcoef : 0 < (2 * h) / (Real.pi * a * er) :=
    div_pos (by linarith) (mul_pos (mul_pos hpi ha) (by linarith))
  have hfac : 1 ≤ 1 + (2 * h) / (Real.pi * a * er) *
      Real.log ((Real.pi * a) / (2 * h) + 1.7726) := by
    have := mul_pos hcoef hlog
    linarith
  have hsq : 1 ≤ Real.sqrt (1 + (2 * h) / (Real.pi * a * er) *
      Real.log ((Real.pi * a) / (2 * h) + 1.7726)) := by
    have hstep := Real.sqrt_le_sqrt hfac
    rwa [Real.sqrt_one] at hstep
  exact le_mul_of_one_le_right (le_of_lt ha) hsq

lemma computeCircularPatch_isSome (fr er h : ℝ) (h1 : 0 < fr) (h2 : 1 ≤ er) (h3 : 0 < h) :
    (computeCircularPatch ⟨fr, er, h⟩).isSome = true := by
  simp only [computeCircularPatch]
  rw [if_neg (by push_neg; exact ⟨h1, h2, h3⟩)]
  split_ifs <;> rfl

lemma computeCircularPatch_some_a_le (inp : CircularPatchInput) (r : CircularPatchResult)
    (hsome : computeCircularPatch inp = some r) : r.a ≤ r.a_e := by
  simp only [computeCircularPatch] at hsome
  split_ifs at hsome with hg hG
  all_goals {
    push_neg at hg
    obtain ⟨h1, h2, h3⟩ := hg
    have hcore : physicalRadius (F inp.frHz inp.epsilonR) inp.hM inp.epsilonR ≤
        effectiveRadius (physicalRadius (F inp.frHz inp.epsilonR) inp.hM inp.epsilonR)
          inp.hM inp.epsilonR :=
      effectiveRadius_ge _ _ _
        (physicalRadius_pos _ _ _ (F_pos _ _ h1 h2) h3 h2) h3 h2
    obtain rfl := Option.some.inj hsome
    exact hcore
  }

lemma bisect_some_result (aM er h : ℝ) :
    ∀ (fuel : ℕ) (FLow FHigh : ℝ) (o : ℝ × CircularPatchResult),
      bisect aM er h fuel FLow FHigh = some o →
      ∃ fr, computeCircularPatch ⟨fr, er, h⟩ = some o.2 := by
  intro fuel
  induction fuel with
  | zero =>
      intro FLow FHigh o hsome
      simp only [bisect] at hsome
      obtain ⟨r, hr, rfl⟩ := Option.map_eq_some'.mp hsome
      exact ⟨_, hr⟩
  | succ fuel ih =>
      intro FLow FHigh o hsome
      simp only [bisect] at hsome
      split_ifs at hsome with hconv hlt
      · obtain ⟨r, hr, rfl⟩ := Option.map_eq_some'.mp hsome
        exact ⟨_, hr⟩
      · exact ih _ _ _ hsome
      · exact ih _ _ _ hsome

lemma bisect_isSome (aM er h : ℝ) (h2 : 1 ≤ er) (h3 : 0 < h) :
    ∀ (fuel : ℕ) (FLow FHigh : ℝ), 0 < FLow → 0 < FHigh →
      (bisect aM er h fuel FLow FHigh).isSome = true := by
  intro fuel
  induction fuel with
  | zero =>
      intro FLow FHigh hL hH
      simp only [bisect]
      have hfr : 0 < 8.791e7 / ((FLow + FHigh) / 2 * Real.sqrt er) :=
        div_pos (by norm_num)
          (mul_pos (by linarith) (Real.sqrt_pos.mpr (by linarith)))
      obtain ⟨r, hr⟩ := Option.isSome_iff_exists.mp
        (computeCircularPatch_isSome _ er h hfr h2 h3)
      rw [hr]
      rfl
  | succ fuel ih =>
      intro FLow FHigh hL hH
      simp only [bisect]
      split_ifs with hconv hlt
      · have hfr : 0 < 8.791e7 / ((FLow + FHigh) / 2 * Real.sqrt er) :=
          div_pos (by norm_num)
            (mul_pos (by linarith) (Real.sqrt_pos.mpr (by linarith)))
        obtain ⟨r, hr⟩ := Option.isSome_iff_exists.mp
          (computeCircularPatch_isSome _ er h hfr h2 h3)
        rw [hr]
        rfl
      · exact ih _ _ (by linarith) hH
      · exact ih _ _ hL (by linarith)

lemma expandLow_pos (aM h er : ℝ) :
    ∀ (fuel : ℕ) (x : ℝ), 0 < x → 0 < expandLow aM h er fuel x := by
  intro fuel
  induction fuel with
  | zero => intro x hx; exact hx
  | succ fuel ih =>
      intro x hx
      simp only [expandLow]
      split_ifs with hcond
      · exact ih _ (by linarith)
      · exact hx

lemma expandHigh_pos (aM h er : ℝ) :
    ∀ (fuel : ℕ) (x : ℝ), 0 < x → 0 < expandHigh aM h er fuel x := by
  intro fuel
  induction fuel with
  | zero => intro x hx; exact hx
  | succ fuel ih =>
      intro x hx
      simp only [expandHigh]
      split_ifs with hcond
      · exact ih _ (by linarith)
      · exact hx

/-- C6: the circular forward solver always returns an effective radius at
least the physical radius (`a_e ≥ a` in every returned record), and every
record returned by the circular reverse solver inherits the same
invariant, since it is produced by a forward run. -/
theorem C6_effective_radius_ge :
    (∀ inp : CircularPatchInput,
        Option.elim (computeCircularPatch inp) True (fun r => r.a ≤ r.a_e)) ∧
    (∀ inp : CircularPatchInputReverse,
        Option.elim (computeCircularPatchReverse inp) True (fun o => o.2.a ≤ o.2.a_e)) := by
  constructor
  · intro inp
    rcases hc : computeCircularPatch inp with _ | r
    · exact trivial
    · exact computeCircularPatch_some_a_le inp r hc
  · intro inp
    rcases hc : computeCircularPatchReverse inp with _ | o
    · exact trivial
    · simp only [computeCircularPatchReverse] at hc
      split_ifs at hc with hg hb
      obtain ⟨fr, hfr⟩ := bisect_some_result inp.aM inp.epsilonR inp.hM 80 _ _ o hc
      exact computeCircularPatch_some_a_le _ _ hfr

/-- C3: for valid input (`aM > 0`, `epsilonR ≥ 1`, `hM > 0`) the circular
reverse solver returns the absence signal exactly when the expanded bounds
fail to bracket the target radius
(`physicalRadius F_low ≤ aM ≤ physicalRadius F_high` fails after halving
`F_low` from 1e-5 and doubling `F_high` from 0.1 within the source's
limits); when a bracket exists the bisection always returns a result —
in particular, after its 80-iteration budget it answers with the final
midpoint rather than failing. -/
theorem C3_circ_reverse_none_iff (aM er h : ℝ) (h1 : 0 < aM) (h2 : 1 ≤ er) (h3 : 0 < h) :
    computeCircularPatchReverse ⟨aM, er, h⟩ = none ↔
      (aM < physicalRadius (expandLow aM h er 100 1e-5) h er ∨
        physicalRadius (expandHigh aM h er 100 0.1) h er < aM) := by
  simp only [computeCircularPatchReverse]
  rw [if_neg (by push_neg; exact ⟨h1, h2, h3⟩)]
  by_cases hb : (aM < physicalRadius (expandLow aM h er 100 1e-5) h er ∨
      physicalRadius (expandHigh aM h er 100 0.1) h er < aM)
  · rw [if_pos hb]
    exact iff_of_true rfl hb
  · rw [if_neg hb]
    have hL := expandLow_pos aM h er 100 1e-5 (by norm_num)
    have hH := expandHigh_pos aM h er 100 0.1 (by norm_num)
    have hs := bisect_isSome aM er h h2 h3 80 _ _ hL hH
    constructor
    · intro hnone
      rw [hnone] at hs
      exact absurd hs (by simp)
    · intro hcond
      exact absurd hcond hb

theorem C3_circ_reverse_none_iff_witness :
    (0 < (1:ℝ)) ∧ (1 ≤ (4.4:ℝ)) ∧ (0 < (1.6e-3:ℝ)) ∧
      (computeCircularPatchReverse ⟨1, 4.4, 1.6e-3⟩ = none ↔
        ((1:ℝ) < physicalRadius (expandLow 1 1.6e-3 4.4 100 1e-5) 1.6e-3 4.4 ∨
          physicalRadius (expandHigh 1 1.6e-3 4.4 100 0.1) 1.6e-3 4.4 < 1)) :=
  ⟨by norm_num, by norm_num, by norm_num,
    C3_circ_reverse_none_iff 1 4.4 1.6e-3 (by norm_num) (by norm_num) (by norm_num)⟩

lemma rectW_pos (fr er : ℝ) (h1 : 0 < fr) (h2 : 1 ≤ er) : 0 < rectW fr er := by
  unfold rectW
  apply mul_pos
  · apply div_pos
    · norm_num [C]
    · linarith
  · exact Real.sqrt_pos.mpr (div_pos (by norm_num) (by linarith))

lemma deltaL_le (ee W h : ℝ) (hee : 1.5 ≤ ee) (hh : 0 < h) (hW : 0 < W) :
    deltaL ee W h ≤ 1.2 * h := by
  unfold deltaL
  have hw : 0 < W / h := div_pos hW hh
  have hden : 0 < (ee - 0.258) * (W / h + 0.8) := by
    apply mul_pos <;> linarith
  have hratio : ((ee + 0.3) * (W / h + 0.264)) / ((ee - 0.258) * (W / h + 0.8)) ≤ 1.45 := by
    rw [div_le_iff hden]
    nlinarith [mul_nonneg (by linarith : (0:ℝ) ≤ ee - 1.5) (le_of_lt hw)]
  have hstep : 0.824 * h * (((ee + 0.3) * (W / h + 0.264)) / ((ee - 0.258) * (W / h + 0.8)))
      ≤ 0.824 * h * 1.45 := by
    apply mul_le_mul_of_nonneg_left hratio
    nlinarith
  nlinarith

lemma rectEe_bounds (fr er h : ℝ) (h1 : 0 < fr) (h2 : 1 ≤ er) (hh : 0 < h) :
    (er + 1) / 2 ≤ rectEe fr er h ∧ rectEe fr er h ≤ er := by
  unfold rectEe
  exact effectiveEpsilon_bounds er (rectW fr er) h h2 hh (rectW_pos fr er h1 h2)

lemma rectL_pos (fr er h : ℝ) (hfr1 : 1e9 ≤ fr) (hfr2 : fr ≤ 1e10)
    (her1 : 2 ≤ er) (her2 : er ≤ 10) (hh1 : 2e-4 ≤ h) (hh2 : h ≤ 3e-3) :
    0 < rectL fr er h := by
  have h1 : 0 < fr := by linarith
  have h2 : 1 ≤ er := by linarith
  have hh : 0 < h := by linarith
  obtain ⟨heeL, heeU⟩ := rectEe_bounds fr er h h1 h2 hh
  have hee15 : 1.5 ≤ rectEe fr er h := by linarith
  have heepos : 0 < rectEe fr er h := by linarith
  have hsqrt_up : Real.sqrt (rectEe fr er h) < 3.17 := by
    rw [Real.sqrt_lt' (by norm_num)]
    nlinarith
  have hsqrt_pos : 0 < Real.sqrt (rectEe fr er h) := Real.sqrt_pos.mpr heepos
  have hd : 2 * fr * Real.sqrt (rectEe fr er h) ≤ 2e10 * 3.17 :=
    mul_le_mul (by linarith) (le_of_lt hsqrt_up) (le_of_lt hsqrt_pos) (by norm_num)
  have hfrac : (299792458:ℝ) / (2e10 * 3.17) ≤
      C / (2 * fr * Real.sqrt (rectEe fr er h)) := by
    rw [show (C:ℝ) = 299792458 from rfl,
      div_le_div_left (by norm_num) (by norm_num)
        (mul_pos (by linarith) hsqrt_pos)]
    exact hd
  have hdl : deltaL (rectEe fr er h) (rectW fr er) h ≤ 1.2 * h :=
    deltaL_le _ _ _ hee15 hh (rectW_pos fr er h1 h2)
  have hnum : (3.6e-3:ℝ) < 299792458 / (2e10 * 3.17) := by norm_num
  unfold rectL
  have hdl2 : deltaL (rectEe fr er h) (rectW fr er) h ≤ 3.6e-3 := by linarith
  linarith

/-- C1: rectangular round-trip — for `fr ∈ [1e9,1e10]`, `epsilonR ∈ [2,10]`,
`hM ∈ [0.2e-3,3e-3]`, whenever the forward solver yields a record with
width `W` and length `L`, the reverse solver on `(W, L, epsilonR, hM)`
succeeds and recovers the original frequency within relative error 1e-9
(over the exact reals the recovery is exact, the reverse being the
algebraic inversion of the forward length formula). -/
theorem C1_rect_roundtrip (fr er h : ℝ)
    (hfr1 : 1e9 ≤ fr) (hfr2 : fr ≤ 1e10) (her1 : 2 ≤ er) (her2 : er ≤ 10)
    (hh1 : 2e-4 ≤ h) (hh2 : h ≤ 3e-3) :
    Option.elim (computeRectangularPatch ⟨fr, er, h⟩) True (fun r =>
      Option.elim (computeRectangularPatchReverse ⟨r.W, r.L, er, h⟩) False (fun o =>
        |o.1 - fr| ≤ 1e-9 * fr)) := by
  have h1 : 0 < fr := by linarith
  have h2 : 1 ≤ er := by linarith
  have hh : 0 < h := by linarith
  rcases hc : computeRectangularPatch ⟨fr, er, h⟩ with _ | r
  · exact trivial
  · have hc0 := hc
    simp only [computeRectangularPatch] at hc
    rw [if_neg (by push_neg; exact ⟨h1, h2, hh⟩)] at hc
    simp only [rectFinish] at hc
    split_ifs at hc with hG hI
    all_goals {
      obtain rfl := Option.some.inj hc
      simp only [Option.elim]
      simp only [computeRectangularPatchReverse]
      rw [if_neg (by
        push_neg
        exact ⟨rectW_pos fr er h1 h2,
          rectL_pos fr er h hfr1 hfr2 her1 her2 hh1 hh2, by linarith, hh⟩)]
      have hsum : rectL fr er h +
          deltaL (effectiveEpsilon er (rectW fr er) h) (rectW fr er) h
          = C / (2 * fr * Real.sqrt (effectiveEpsilon er (rectW fr er) h)) := by
        unfold rectL rectEe
        ring
      have heepos : 0 < effectiveEpsilon er (rectW fr er) h := by
        have := (effectiveEpsilon_bounds er (rectW fr er) h h2 hh
          (rectW_pos fr er h1 h2)).1
        linarith
      have hfr' : C / (2 * Real.sqrt (effectiveEpsilon er (rectW fr er) h) *
          (C / (2 * fr * Real.sqrt (effectiveEpsilon er (rectW fr er) h)))) = fr := by
        have hs0 : Real.sqrt (effectiveEpsilon er (rectW fr er) h) ≠ 0 :=
          ne_of_gt (Real.sqrt_pos.mpr heepos)
        have hfr0 : fr ≠ 0 := ne_of_gt h1
        have hC0 : (C:ℝ) ≠ 0 := by norm_num [C]
        field_simp
        ring
      rw [hsum, hfr', if_neg (not_le.mpr h1), hc0]
      simp only [Option.map_some', Option.elim]
      rw [sub_self, abs_zero]
      linarith
    }

theorem C1_rect_roundtrip_witness :
    ((1e9:ℝ) ≤ 2.4e9) ∧ ((2.4e9:ℝ) ≤ 1e10) ∧ ((2:ℝ) ≤ 4.4) ∧ ((4.4:ℝ) ≤ 10) ∧
      ((2e-4:ℝ) ≤ 1.6e-3) ∧ ((1.6e-3:ℝ) ≤ 3e-3) ∧
      Option.elim (computeRectangularPatch ⟨2.4e9, 4.4, 1.6e-3⟩) True (fun r =>
        Option.elim (computeRectangularPatchReverse ⟨r.W, r.L, 4.4, 1.6e-3⟩) False (fun o =>
          |o.1 - 2.4e9| ≤ 1e-9 * 2.4e9)) :=
  ⟨by norm_num, by norm_num, by norm_num, by norm_num, by norm_num, by norm_num,
    C1_rect_roundtrip 2.4e9 4.4 1.6e-3 (by norm_num) (by norm_num) (by norm_num)
      (by norm_num) (by norm_num) (by norm_num)⟩

/-- C7: partial result on directivity non-convergence — the rectangular
forward solver is the guard followed by the result-assembly tail
`rectFinish` applied to the component quantities (first conjunct), and on
any arguments with a positive conductance sum but a non-positive
directivity integral `I1`, that tail still returns a record carrying all
dimensional and conductance fields, with both directivity fields set to
the not-a-number marker (`none`), rather than the absence signal `none`
of the `Option` (second conjunct). -/
theorem C7_partial_on_bad_I1 :
    (∀ inp : RectangularPatchInput,
        ¬(inp.frHz ≤ 0 ∨ inp.epsilonR < 1 ∨ inp.hM ≤ 0) →
        computeRectangularPatch inp =
          rectFinish (rectW inp.frHz inp.epsilonR) (rectL inp.frHz inp.epsilonR inp.hM)
            (rectLeff inp.frHz inp.epsilonR inp.hM) (rectEe inp.frHz inp.epsilonR inp.hM)
            (wavelength inp.frHz) (rectG1 inp.frHz inp.epsilonR)
            (rectG12 inp.frHz inp.epsilonR inp.hM) (rectI1 inp.frHz inp.epsilonR inp.hM)) ∧
    (∀ W L Leff ee lam G1 G12 I1 : ℝ, 0 < G1 + G12 → I1 ≤ 0 →
        rectFinish W L Leff ee lam G1 G12 I1 =
          some ⟨W, L, Leff, ee, G1, G12, 1 / (2 * (G1 + G12)),
            rectY0 L (1 / (2 * (G1 + G12))), none, none, lam⟩) := by
  constructor
  · intro inp hvalid
    simp only [computeRectangularPatch]
    rw [if_neg hvalid]
  · intro W L Leff ee lam G1 G12 I1 hG hI
    simp only [rectFinish]
    rw [if_neg (not_le.mpr hG), if_pos hI]

theorem C7_partial_on_bad_I1_witness :
    (¬((2.4e9:ℝ) ≤ 0 ∨ (4.4:ℝ) < 1 ∨ (1.6e-3:ℝ) ≤ 0)) ∧
      ((0:ℝ) < 1 + 1) ∧ ((-1:ℝ) ≤ 0) ∧
      (computeRectangularPatch ⟨2.4e9, 4.4, 1.6e-3⟩ =
        rectFinish (rectW 2.4e9 4.4) (rectL 2.4e9 4.4 1.6e-3) (rectLeff 2.4e9 4.4 1.6e-3)
          (rectEe 2.4e9 4.4 1.6e-3) (wavelength 2.4e9) (rectG1 2.4e9 4.4)
          (rectG12 2.4e9 4.4 1.6e-3) (rectI1 2.4e9 4.4 1.6e-3)) ∧
      rectFinish 1 1 1 1 1 1 1 (-1) =
        some ⟨1, 1, 1, 1, 1, 1, 1 / (2 * (1 + 1)),
          rectY0 1 (1 / (2 * (1 + 1))), none, none, 1⟩ :=
  ⟨by norm_num, by norm_num, by norm_num,
    C7_partial_on_bad_I1.1 ⟨2.4e9, 4.4, 1.6e-3⟩ (by norm_num),
    C7_partial_on_bad_I1.2 1 1 1 1 1 1 1 (-1) (by norm_num) (by norm_num)⟩

lemma rectY0_eq (L Rin : ℝ) :
    rectY0 L Rin = if 50 ≤ Rin ∧ Rin < 1e10 then
      some ((L / Real.pi) * Real.arccos (Real.sqrt (50 / Rin))) else none := by
  simp only [rectY0]
  split_ifs with h1 h2
  · rfl
  · exfalso
    apply h2
    constructor
    · rw [div_le_one (by linarith [h1.1])]
      linarith [h1.1]
    · exact div_nonneg (by norm_num) (by linarith [h1.1])
  · rfl

/-- C8: in every record returned by the rectangular forward solver, the
feed inset `y0_50ohm` is present exactly when `50 ≤ RinAtEdge < 1e10`, and
then equals `(L/π)·acos(sqrt(50/RinAtEdge))`; it is absent otherwise (the
source's inner ratio-range test is subsumed, since `0 ≤ 50/Rin ≤ 1`
whenever `Rin ≥ 50`). -/
theorem C8_y0_iff :
    ∀ inp : RectangularPatchInput,
      Option.elim (computeRectangularPatch inp) True (fun r =>
        r.y0_50ohm = if 50 ≤ r.RinAtEdge ∧ r.RinAtEdge < 1e10 then
          some ((r.L / Real.pi) * Real.arccos (Real.sqrt (50 / r.RinAtEdge))) else none) := by
  intro inp
  rcases hc : computeRectangularPatch inp with _ | r
  · exact trivial
  · simp only [computeRectangularPatch, rectFinish] at hc
    split_ifs at hc with hg hG hI
    all_goals {
      obtain rfl := Option.some.inj hc
      exact rectY0_eq _ _
    }

end MS

namespace MS.JS

lemma nan_mul (x : JSNum) : JSNum.nan * x = JSNum.nan := by cases x <;> rfl

lemma mul_nan (x : JSNum) : x * JSNum.nan = JSNum.nan := by cases x <;> rfl

lemma nan_add (x : JSNum) : JSNum.nan + x = JSNum.nan := by cases x <;> rfl

lemma add_nan (x : JSNum) : x + JSNum.nan = JSNum.nan := by cases x <;> rfl

lemma nan_div (x : JSNum) : JSNum.nan / x = JSNum.nan := by cases x <;> rfl

lemma div_nan (x : JSNum) : x / JSNum.nan = JSNum.nan := by cases x <;> rfl

lemma nan_sub (x : JSNum) : JSNum.nan - x = JSNum.nan := by cases x <;> rfl

lemma sub_nan (x : JSNum) : x - JSNum.nan = JSNum.nan := by cases x <;> rfl

lemma jsSqrt_nan : jsSqrt JSNum.nan = JSNum.nan := rfl

lemma jsLog_nan : jsLog JSNum.nan = JSNum.nan := rfl

lemma jsIsFinite_nan : jsIsFinite JSNum.nan = false := rfl

lemma jsLe_nan (x : JSNum) : jsLe JSNum.nan x = false := by cases x <;> rfl

lemma jsLt_nan (x : JSNum) : jsLt JSNum.nan x = false := by cases x <;> rfl

lemma jsLe_num (x y : ℝ) : jsLe (JSNum.num x) (JSNum.num y) = if x ≤ y then true else false :=
  rfl

lemma jsLt_num (x y : ℝ) : jsLt (JSNum.num x) (JSNum.num y) = if x < y then true else false :=
  rfl

lemma jsPow_two (b : JSNum) : jsPow b 2 = JSNum.num 1 * b * b := rfl

lemma physicalRadius_nan (h er : JSNum) : physicalRadius JSNum.nan h er = JSNum.nan := by
  simp only [physicalRadius, nan_mul, mul_nan, nan_div, div_nan, nan_add, add_nan,
    jsLog_nan, jsSqrt_nan]

lemma effectiveRadius_nan (h er : JSNum) : effectiveRadius JSNum.nan h er = JSNum.nan := by
  simp only [effectiveRadius, nan_mul, mul_nan, nan_div, div_nan, nan_add, add_nan,
    jsLog_nan, jsSqrt_nan]

/-- C10: non-finite inputs bypass the circular solver's defensive guard.
With `frHz = NaN` (and ordinary `epsilonR = 4.4`, `hM = 1.6e-3`) the guard
`frHz <= 0 || epsilonR < 1 || hM <= 0` is false — every comparison against
NaN is false — so the solver runs and returns a record whose `a`, `a_e`,
`lambda0` and both directivity fields are all NaN, instead of the `none`
absence signal; likewise a NaN `epsilonR` bypasses the guard and yields a
record. -/
theorem C10_nan_guard_bypass :
    computeCircularPatch JSNum.nan (JSNum.num 4.4) (JSNum.num 1.6e-3) =
      some ⟨JSNum.nan, JSNum.nan, JSNum.nan, JSNum.nan, JSNum.nan⟩ ∧
    (computeCircularPatch (JSNum.num 2.4e9) JSNum.nan (JSNum.num 1.6e-3)).isSome = true := by
  constructor
  · simp only [computeCircularPatch]
    rw [if_neg (by norm_num [jsLe_nan, jsLt_num, jsLe_num])]
    simp only [wavelength, k0, F, jsC, physicalRadius_nan, effectiveRadius_nan,
      jsSqrt_nan, nan_mul, mul_nan, nan_div, div_nan, nan_add, add_nan,
      jsPow_two, jsIsFinite_nan, Bool.not_false, Bool.true_or, eq_self_iff_true, if_true]
  · simp only [computeCircularPatch]
    rw [if_neg (by norm_num [jsLe_num, jsLt_nan])]
    simp only [wavelength, k0, F, jsC, physicalRadius_nan, effectiveRadius_nan,
      jsSqrt_nan, nan_mul, mul_nan, nan_div, div_nan, nan_add, add_nan,
      jsPow_two, jsIsFinite_nan, Bool.not_false, Bool.true_or, eq_self_iff_true, if_true,
      Option.isSome_some]

end MS.JS
